import Mathlib

/-!
Verification of the Englytics dictionary application core
(`src/App.tsx`; the translation cache, translation client, related-word
aggregator, search-history, favorites and search-orchestration logic).

The shallow embedding below translates the TypeScript functions into Lean:
timestamps are `Int` milliseconds (JS `Date.now()`), JS objects keyed by
strings are association lists with insert-or-update semantics, network
calls are oracles (`Option` outcomes: `none` is any failure — network
error, non-success status or malformed body), and React state updates are
explicit state passing.  Display-only fields of the API payloads
(phonetics, audio, licence, origin, per-meaning synonym/antonym chips) are
not part of any verified operation and are omitted from the record types.
-/

namespace Englytics

/-- Model of JS `String.prototype.toLowerCase` (ASCII case folding),
used by `addToHistory`. -/
def strLower (s : String) : String :=
  String.mk (s.data.map Char.toLower)

/-- Model of JS `String.prototype.trim`: drop leading and trailing
whitespace.  Used by the blank-input guard of `handleSearch`. -/
def strTrim (s : String) : String :=
  String.mk (((s.data.dropWhile Char.isWhitespace).reverse.dropWhile Char.isWhitespace).reverse)

/-- Fuel-driven accumulator for decimal rendering of a natural number
(the JS template interpolation of an array index).  The fuel `n + 1`
always suffices since a number has at most `n + 1` decimal digits. -/
def natCharsGo : Nat → Nat → List Char → List Char
  | 0, _, acc => acc
  | fuel + 1, n, acc =>
    if n < 10 then Nat.digitChar (n % 10) :: acc
    else natCharsGo fuel (n / 10) (Nat.digitChar (n % 10) :: acc)

/-- Decimal digit characters of `n`, most significant first: the JS
rendering of `${defIndex}` in a template literal. -/
def natChars (n : Nat) : List Char :=
  natCharsGo (n + 1) n []

/-- JS decimal rendering of a natural number as a string. -/
def natToStr (n : Nat) : String :=
  String.mk (natChars n)

/-- `type Language = 'en' | 'pt-BR'` from the source. -/
inductive Language
  | en
  | ptBR
deriving DecidableEq

/-- One definition record of the dictionary API payload:
`{ definition: string; example?: string }` (the `example` field is named
`exampleText` here because `example` is a Lean keyword). -/
structure DefinitionItem where
  definition : String
  exampleText : Option String
deriving DecidableEq

/-- One meaning of a dictionary entry:
`{ partOfSpeech: string; definitions: ... }`. -/
structure Meaning where
  partOfSpeech : String
  definitions : List DefinitionItem
deriving DecidableEq

/-- One dictionary entry (`DictionaryResponse` in the source): the
headword plus its meanings. -/
structure DictionaryResponse where
  word : String
  meanings : List Meaning
deriving DecidableEq

/-- `type RelatedWord = { word: string; score: number }` — Datamuse
scores are integral relatedness ranks. -/
structure RelatedWord where
  word : String
  score : Int
deriving DecidableEq

/-- A translation-cache entry: `{ text: string; timestamp: number }`. -/
structure CacheEntry where
  text : String
  timestamp : Int
deriving DecidableEq

/-- `type TranslationCache = { [key: string]: { text, timestamp } }`,
modelled as an association list in insertion order (JS object key order
for string keys). -/
abbrev TranslationCache := List (String × CacheEntry)

/-- `24 * 60 * 60 * 1000` milliseconds: the cache validity window. -/
def dayMs : Int := 24 * 60 * 60 * 1000

/-- JS object read `translationCache[key]`. -/
def cacheFind : TranslationCache → String → Option CacheEntry
  | [], _ => none
  | p :: rest, k => if p.1 = k then some p.2 else cacheFind rest k

/-- JS object write `{...translationCache, [key]: {text, timestamp}}`:
overwrite the entry for the key in place, or append a fresh one. -/
def cacheStore : TranslationCache → String → String → Int → TranslationCache
  | [], k, v, t => [(k, ⟨v, t⟩)]
  | p :: rest, k, v, t => if p.1 = k then (k, ⟨v, t⟩) :: rest else p :: cacheStore rest k v t

/-- The cache lookup of `translateText`: the entry is returned only when
present and fresh (`Date.now() - cached.timestamp < 24 * 60 * 60 * 1000`,
a strict comparison in the source).  Expired entries are merely skipped,
never removed. -/
def cacheLookup (cache : TranslationCache) (key : String) (now : Int) : Option CacheEntry :=
  match cacheFind cache key with
  | some e => if now - e.timestamp < dayMs then some e else none
  | none => none

/-- `const key = cacheKey || text`: an absent or empty (falsy) cache key
falls back to the text itself. -/
def effectiveKey (text : String) (cacheKey : Option String) : String :=
  match cacheKey with
  | some k => if k = "" then text else k
  | none => text

/-- `translateText(text, cacheKey?)` from the source.  `net` is the
network oracle: `none` for any failure (network error, non-success probe
status, malformed response body), `some tr` for a success whose extracted
`responseData.translatedText` is `tr` (the source treats an empty —
falsy — translated string as malformed).  Returns the produced string,
the cache after the call, and whether the network was reached. -/
def translateText (language : Language) (cache : TranslationCache) (now : Int)
    (text : String) (cacheKey : Option String) (net : Option String) :
    String × TranslationCache × Bool :=
  if language = Language.en then (text, cache, false)
  else
    match cacheLookup cache (effectiveKey text cacheKey) now with
    | some e => (e.text, cache, false)
    | none =>
      match net with
      | some tr =>
        if tr = "" then (text, cache, true)
        else (tr, cacheStore cache (effectiveKey text cacheKey) tr now, true)
      | none => (text, cache, true)

/-- `addToHistory(word)`: lowercase the word, drop any case-insensitively
equal previous occurrence, push to the front, keep the first 15. -/
def addToHistory (history : List String) (w : String) : List String :=
  (strLower w :: history.filter (fun x => strLower x ≠ strLower w)).take 15

/-- `toggleFavorite(word)`: remove the word when present, append it when
absent. -/
def toggleFavorite (favorites : List String) (w : String) : List String :=
  if favorites.contains w then favorites.filter (fun x => x ≠ w) else favorites ++ [w]

/-- The dedup step of `fetchRelatedWords`, verbatim from
`.filter((v, i, a) => a.findIndex(t => t.word === v.word) === i)`:
an element is kept exactly when its index is the first index carrying its
word text. -/
def jsDedupByWord (a : List RelatedWord) : List RelatedWord :=
  (a.enum.filter (fun iv => a.findIdx (fun t => t.word = iv.2.word) = iv.1)).map Prod.snd

/-- Recursive keep-first-occurrence dedup (the spec's wording of the merge
policy), carrying the set of word texts already seen. -/
def dedupFirstRW : List String → List RelatedWord → List RelatedWord
  | _, [] => []
  | seen, x :: xs =>
    if x.word ∈ seen then dedupFirstRW seen xs else x :: dedupFirstRW (x.word :: seen) xs

/-- The comparator `(a, b) => b.score - a.score`: `a` may precede `b`
exactly when the comparator is non-positive. -/
def relatedLe (a b : RelatedWord) : Bool :=
  b.score ≤ a.score

/-- The body of `fetchRelatedWords` after the three responses arrive:
concatenate, dedup by word keeping first occurrences, sort by score
descending, keep the first 30. -/
def combineRelated (syn trg adj : List RelatedWord) : List RelatedWord :=
  ((jsDedupByWord (syn ++ trg ++ adj)).mergeSort relatedLe).take 30

/-- The aggregation pipeline exactly as the spec words it (dedup phrased
as keep-first recursion); compared with `combineRelated` in claim C4. -/
def specAggregate (syn trg adj : List RelatedWord) : List RelatedWord :=
  ((dedupFirstRW [] (syn ++ trg ++ adj)).mergeSort relatedLe).take 30

/-- Cache key of a definition text:
`` `${def.word}-${meaning.partOfSpeech}-${defIndex}` ``. -/
def mkDefKey (w pos : String) (i : Nat) : String :=
  w ++ "-" ++ pos ++ "-" ++ natToStr i

/-- Cache key of an example text:
`` `${def.word}-${meaning.partOfSpeech}-${defIndex}-example` ``. -/
def mkExampleKey (w pos : String) (i : Nat) : String :=
  w ++ "-" ++ pos ++ "-" ++ natToStr i ++ "-example"

/-- JS object assignment `obj[k] = v` on an association list: update the
existing binding in place, or append a new one. -/
def objInsert : List (String × String) → String → String → List (String × String)
  | [], k, v => [(k, v)]
  | p :: rest, k, v => if p.1 = k then (k, v) :: rest else p :: objInsert rest k v

/-- Fold a sequence of JS object assignments over an initial object. -/
def objFromList (init : List (String × String)) (kvs : List (String × String)) :
    List (String × String) :=
  kvs.foldl (fun m kv => objInsert m kv.1 kv.2) init

/-- Keep-first dedup on key strings (what repeated JS object assignment
does to the key sequence). -/
def dedupKeys : List String → List String → List String
  | _, [] => []
  | seen, k :: ks =>
    if k ∈ seen then dedupKeys seen ks else k :: dedupKeys (k :: seen) ks

/-- All definition (key, text) pairs of one entry, in traversal order of
`translateDefinitionsAndExamples`. -/
def defKeyTexts (e : DictionaryResponse) : List (String × String) :=
  e.meanings.flatMap (fun m =>
    m.definitions.enum.map (fun iv => (mkDefKey e.word m.partOfSpeech iv.1, iv.2.definition)))

/-- All example (key, text) pairs of one entry, in traversal order. -/
def exampleKeyTexts (e : DictionaryResponse) : List (String × String) :=
  e.meanings.flatMap (fun m =>
    m.definitions.enum.filterMap (fun iv =>
      iv.2.exampleText.map (fun ex => (mkExampleKey e.word m.partOfSpeech iv.1, ex))))

/-- All definition (key, text) pairs across all returned entries. -/
def allDefKeyTexts (defs : List DictionaryResponse) : List (String × String) :=
  defs.flatMap defKeyTexts

/-- All example (key, text) pairs across all returned entries. -/
def allExampleKeyTexts (defs : List DictionaryResponse) : List (String × String) :=
  defs.flatMap exampleKeyTexts

/-- One iteration of the innermost `forEach` of
`translateDefinitionsAndExamples`: record the definition text under its
key in `definitionsToTranslate` and, when an example is present, the
example text under its key in `examplesToTranslate`. -/
def collectStep (w pos : String) (acc : List (String × String) × List (String × String))
    (iv : Nat × DefinitionItem) : List (String × String) × List (String × String) :=
  match iv.2.exampleText with
  | some ex =>
    (objInsert acc.1 (mkDefKey w pos iv.1) iv.2.definition,
     objInsert acc.2 (mkExampleKey w pos iv.1) ex)
  | none => (objInsert acc.1 (mkDefKey w pos iv.1) iv.2.definition, acc.2)

/-- The object-building loop of `translateDefinitionsAndExamples`: two JS
objects, `definitionsToTranslate` and `examplesToTranslate`, filled by
nested `forEach` over entries, meanings and indexed definitions. -/
def collectTranslatable (defs : List DictionaryResponse) :
    List (String × String) × List (String × String) :=
  defs.foldl (fun acc e =>
    e.meanings.foldl (fun acc2 m =>
      m.definitions.enum.foldl (collectStep e.word m.partOfSpeech) acc2) acc) ([], [])

/-- The bulk-translation fan-out: the (key, text) pairs handed to
`translateText`, one per `Object.entries` binding — definition items
first component, example items second.  For an English target the
function returns before building anything. -/
def bulkInvocations (language : Language) (defs : List DictionaryResponse) :
    List (String × String) × List (String × String) :=
  if language = Language.en then ([], []) else collectTranslatable defs

/-- Run the fan-out of `translateText` calls over a list of (key, text)
invocations, yielding the per-key results, the final cache, and how many
network calls were made.  The parallel `Promise.all` calls are modelled
in list order (execution is single-threaded and the claims do not depend
on the interleaving). -/
def runBulk (language : Language) (now : Int) (net : String → String → Option String) :
    TranslationCache → List (String × String) →
    List (String × String) × TranslationCache × Nat
  | cache, [] => ([], cache, 0)
  | cache, kv :: rest =>
    let r := translateText language cache now kv.2 (some kv.1) (net kv.1 kv.2)
    let rs := runBulk language now net r.2.1 rest
    ((kv.1, r.1) :: rs.1, rs.2.1, (if r.2.2 then 1 else 0) + rs.2.2)

/-- Outcome of the dictionary-API fetch: success with parsed entries,
HTTP 404, or any other failure (non-success status, network error,
malformed JSON). -/
inductive DictOutcome
  | success (entries : List DictionaryResponse)
  | notFound
  | failed
deriving DecidableEq

/-- `t.wordNotFound`: the 404 message in the interface language. -/
def wordNotFoundMsg : Language → String
  | Language.en => "Word not found"
  | Language.ptBR => "Palavra não encontrada"

/-- The React state slices touched by one search. -/
structure AppState where
  word : String
  definitions : List DictionaryResponse
  relatedWords : List RelatedWord
  translation : Option (String × String)
  favorites : List String
  history : List String
  language : Language
  error : Option String
  translationCache : TranslationCache
  definitionTranslations : List (String × String)
  exampleTranslations : List (String × String)
deriving DecidableEq

/-- The network's behaviour during one search: the dictionary outcome,
the three Datamuse responses (`none` is a failed sub-call), and the
translation oracle indexed by cache key and text. -/
structure NetworkEnv where
  dict : DictOutcome
  syn : Option (List RelatedWord)
  trg : Option (List RelatedWord)
  adj : Option (List RelatedWord)
  translationNet : String → String → Option String

/-- `fetchDefinitions(word)`: map the outcome onto state — entries plus
bulk definition/example translation on success, `Word not found` on 404,
a generic message otherwise; both failure paths clear `definitions`.
Returns the new state and the number of network calls. -/
def fetchDefinitionsFull (st : AppState) (env : NetworkEnv) (now : Int) : AppState × Nat :=
  match env.dict with
  | DictOutcome.success entries =>
    if st.language = Language.en then
      ({ st with definitions := entries, error := none }, 1)
    else
      let invs := bulkInvocations st.language entries
      let rd := runBulk st.language now env.translationNet st.translationCache invs.1
      let re := runBulk st.language now env.translationNet rd.2.1 invs.2
      ({ st with definitions := entries, error := none,
                 translationCache := re.2.1,
                 definitionTranslations := rd.1,
                 exampleTranslations := re.1 }, 1 + rd.2.2 + re.2.2)
  | DictOutcome.notFound =>
    ({ st with definitions := [], error := some (wordNotFoundMsg st.language) }, 1)
  | DictOutcome.failed =>
    ({ st with definitions := [], error := some "Failed to fetch data" }, 1)

/-- `fetchRelatedWords(word)`: three parallel Datamuse calls joined by
`Promise.all`; on full success the merged list replaces the state, on any
sub-call failure the rejection is caught and only logged — every state
slice keeps its previous value. -/
def fetchRelatedWordsFull (st : AppState) (env : NetworkEnv) : AppState × Nat :=
  match env.syn, env.trg, env.adj with
  | some s, some t, some j => ({ st with relatedWords := combineRelated s t j }, 3)
  | _, _, _ => (st, 3)

/-- `fetchTranslation(word)`: clear the headword translation for English,
otherwise translate the headword under the `main-word-` cache key. -/
def fetchTranslationFull (st : AppState) (w : String) (env : NetworkEnv) (now : Int) :
    AppState × Nat :=
  if st.language = Language.en then ({ st with translation := none }, 0)
  else
    let key := "main-word-" ++ w
    let r := translateText st.language st.translationCache now w (some key)
      (env.translationNet key w)
    ({ st with translation := some (r.1, "Português"), translationCache := r.2.1 },
      if r.2.2 then 1 else 0)

/-- `handleSearch(searchWord)`: no-op on blank input, otherwise set the
word, record history synchronously, then run the three fetches (the
`Promise.all` members are composed in program order; they write disjoint
state slices except for the cache). -/
def handleSearch (st : AppState) (searchWord : String) (env : NetworkEnv) (now : Int) :
    AppState × Nat :=
  if strTrim searchWord = "" then (st, 0)
  else
    let st1 := { st with word := searchWord, history := addToHistory st.history searchWord }
    let d := fetchDefinitionsFull st1 env now
    let r := fetchRelatedWordsFull d.1 env
    let t := fetchTranslationFull r.1 searchWord env now
    (t.1, d.2 + r.2 + t.2)

/-- A state with nothing loaded (used to instantiate theorems). -/
def emptyState : AppState :=
  ⟨"", [], [], none, [], [], Language.en, none, [], [], []⟩

/-- An environment in which every network call fails. -/
def noNetworkEnv : NetworkEnv :=
  ⟨DictOutcome.failed, none, none, none, fun _ _ => none⟩

/-- Two homograph entries sharing headword and part of speech: their
definition cache keys collide (used in claim C2). -/
def twoRunEntries : List DictionaryResponse :=
  [⟨"run", [⟨"noun", [⟨"a jog", none⟩]⟩]⟩,
   ⟨"run", [⟨"noun", [⟨"a quick trip", none⟩]⟩]⟩]

/-! ### Helper lemmas -/

theorem cacheFind_cacheStore (m : TranslationCache) (k v : String) (t : Int) :
    cacheFind (cacheStore m k v t) k = some ⟨v, t⟩ := by
  induction m with
  | nil => simp [cacheStore, cacheFind]
  | cons p rest ih =>
    by_cases h : p.1 = k
    · simp [cacheStore, h, cacheFind]
    · simp [cacheStore, h, cacheFind, ih]

theorem all_take_of_all {α : Type} (p : α → Bool) (n : Nat) (l : List α)
    (h : l.all p = true) : (l.take n).all p = true := by
  rw [List.all_eq_true] at h ⊢
  exact fun x hx => h x ((List.take_sublist n l).subset hx)

theorem all_self_filter {α : Type} (p : α → Bool) (l : List α) :
    (l.filter p).all p = true := by
  rw [List.all_eq_true]
  exact fun x hx => (List.mem_filter.mp hx).2

theorem findIdx_append_of_forall {α : Type} (p : α → Bool) (l₁ l₂ : List α)
    (h : ∀ b ∈ l₁, p b = false) :
    (l₁ ++ l₂).findIdx p = l₁.length + l₂.findIdx p := by
  induction l₁ with
  | nil => simp
  | cons b bs ih =>
    have hb : p b = false := h b (by simp)
    rw [List.cons_append, List.findIdx_cons, hb]
    have := ih (fun x hx => h x (by simp [hx]))
    simp only [cond_false, this, List.length_cons]
    omega

theorem findIdx_append_lt {α : Type} (p : α → Bool) (l₁ l₂ : List α)
    (h : ∃ b ∈ l₁, p b = true) :
    (l₁ ++ l₂).findIdx p < l₁.length := by
  induction l₁ with
  | nil => simp at h
  | cons b bs ih =>
    rw [List.cons_append, List.findIdx_cons]
    by_cases hb : p b = true
    · simp [hb]
    · have hb' : p b = false := by simpa using hb
      rcases h with ⟨c, hc, hpc⟩
      rcases List.mem_cons.mp hc with rfl | hc'
      · exact absurd hpc hb
      · have hlt := ih ⟨c, hc', hpc⟩
        simp only [hb', cond_false, List.length_cons]
        omega

theorem jsDedup_aux : ∀ (suf pre : List RelatedWord) (seen : List String),
    (∀ w, w ∈ seen ↔ w ∈ pre.map RelatedWord.word) →
    ((List.enumFrom pre.length suf).filter
        (fun iv => (pre ++ suf).findIdx (fun t => t.word = iv.2.word) = iv.1)).map Prod.snd
      = dedupFirstRW seen suf := by
  intro suf
  induction suf with
  | nil => intro pre seen _; simp [dedupFirstRW]
  | cons x xs ih =>
    intro pre seen hseen
    have hstep : pre ++ x :: xs = (pre ++ [x]) ++ xs := by simp
    have hlen : (pre ++ [x]).length = pre.length + 1 := by simp
    rw [List.enumFrom_cons, List.filter_cons]
    by_cases hmem : x.word ∈ pre.map RelatedWord.word
    · have hex : ∃ b ∈ pre, (fun t : RelatedWord => decide (t.word = x.word)) b = true := by
        rcases List.mem_map.mp hmem with ⟨b, hb, hbw⟩
        exact ⟨b, hb, by simp [hbw]⟩
      have hlt := findIdx_append_lt _ pre (x :: xs) hex
      have hxin : x.word ∈ seen := (hseen x.word).mpr hmem
      have hseen' : ∀ w, w ∈ seen ↔ w ∈ (pre ++ [x]).map RelatedWord.word := by
        intro w
        rw [hseen w]
        simp only [List.map_append, List.map_cons, List.map_nil, List.mem_append,
          List.mem_singleton]
        constructor
        · exact Or.inl
        · rintro (hw | rfl)
          · exact hw
          · exact hmem
      have hres := ih (pre ++ [x]) seen hseen'
      simp only [hlen] at hres
      simp only [← hstep] at hres
      split_ifs with hif
      · exfalso
        simp at hif
        omega
      · rw [hres]
        simp [dedupFirstRW, hxin]
    · have hall : ∀ b ∈ pre, (fun t : RelatedWord => decide (t.word = x.word)) b = false := by
        intro b hb
        simp only [decide_eq_false_iff_not]
        exact fun hbw => hmem (List.mem_map.mpr ⟨b, hb, hbw⟩)
      have heq : (pre ++ x :: xs).findIdx (fun t => t.word = x.word) = pre.length := by
        rw [findIdx_append_of_forall _ pre _ hall, List.findIdx_cons]
        simp
      have hnotseen : ¬ x.word ∈ seen := fun hin => hmem ((hseen x.word).mp hin)
      have hseen' : ∀ w, w ∈ (x.word :: seen) ↔ w ∈ (pre ++ [x]).map RelatedWord.word := by
        intro w
        rw [List.mem_cons, hseen w]
        simp only [List.map_append, List.map_cons, List.map_nil, List.mem_append,
          List.mem_singleton]
        tauto
      have hres := ih (pre ++ [x]) (x.word :: seen) hseen'
      simp only [hlen] at hres
      simp only [← hstep] at hres
      split_ifs with hif
      · rw [List.map_cons, hres]
        simp [dedupFirstRW, hnotseen]
      · exfalso
        simp at hif
        exact hif heq

theorem jsDedup_eq_dedupFirst (a : List RelatedWord) :
    jsDedupByWord a = dedupFirstRW [] a := by
  have h := jsDedup_aux a [] [] (by simp)
  simpa [jsDedupByWord, List.enum] using h

theorem dedupFirstRW_props : ∀ (l : List RelatedWord) (seen : List String),
    ((dedupFirstRW seen l).map RelatedWord.word).Nodup
      ∧ ∀ w ∈ (dedupFirstRW seen l).map RelatedWord.word, ¬ w ∈ seen := by
  intro l
  induction l with
  | nil => intro seen; simp [dedupFirstRW]
  | cons x xs ih =>
    intro seen
    by_cases hx : x.word ∈ seen
    · simpa [dedupFirstRW, hx] using ih seen
    · obtain ⟨hnd, hav⟩ := ih (x.word :: seen)
      simp only [dedupFirstRW, if_neg hx, List.map_cons]
      constructor
      · exact List.nodup_cons.mpr ⟨fun hmem => (hav _ hmem) (by simp), hnd⟩
      · intro w hw
        rcases List.mem_cons.mp hw with rfl | hw'
        · exact hx
        · exact fun hs => hav _ hw' (List.mem_cons.mpr (Or.inr hs))

theorem relatedLe_trans : ∀ a b c : RelatedWord,
    relatedLe a b = true → relatedLe b c = true → relatedLe a c = true := by
  intro a b c hab hbc
  simp only [relatedLe, decide_eq_true_eq] at *
  omega

theorem relatedLe_total : ∀ a b : RelatedWord, (relatedLe a b || relatedLe b a) = true := by
  intro a b
  simp only [relatedLe, Bool.or_eq_true, decide_eq_true_eq]
  omega

theorem objInsert_keys (m : List (String × String)) (k v : String) :
    (objInsert m k v).map Prod.fst
      = if k ∈ m.map Prod.fst then m.map Prod.fst else m.map Prod.fst ++ [k] := by
  induction m with
  | nil => simp [objInsert]
  | cons p rest ih =>
    by_cases h : p.1 = k
    · have hmem : k ∈ (p :: rest).map Prod.fst := by simp [h]
      rw [if_pos hmem]
      simp [objInsert, h]
    · by_cases h2 : k ∈ rest.map Prod.fst
      · have hmem : k ∈ (p :: rest).map Prod.fst := by simp [h2]
        rw [if_pos hmem]
        simp [objInsert, h, ih, h2]
      · have hmem : ¬ k ∈ (p :: rest).map Prod.fst := by
          simp only [List.map_cons, List.mem_cons]
          rintro (rfl | hin)
          · exact h rfl
          · exact h2 hin
        rw [if_neg hmem]
        simp [objInsert, h, ih, h2]

theorem dedupKeys_congr : ∀ (l s₁ s₂ : List String),
    (∀ w, w ∈ s₁ ↔ w ∈ s₂) → dedupKeys s₁ l = dedupKeys s₂ l := by
  intro l
  induction l with
  | nil => intro s₁ s₂ _; rfl
  | cons k ks ih =>
    intro s₁ s₂ h
    by_cases hk : k ∈ s₁
    · simp only [dedupKeys, if_pos hk, if_pos ((h k).mp hk)]
      exact ih s₁ s₂ h
    · simp only [dedupKeys, if_neg hk, if_neg (fun hin => hk ((h k).mpr hin))]
      rw [ih (k :: s₁) (k :: s₂) (by intro w; simp [h w])]

theorem objFromList_keys : ∀ (kvs m : List (String × String)),
    (objFromList m kvs).map Prod.fst
      = m.map Prod.fst ++ dedupKeys (m.map Prod.fst) (kvs.map Prod.fst) := by
  intro kvs
  induction kvs with
  | nil => intro m; simp [objFromList, dedupKeys]
  | cons kv rest ih =>
    intro m
    rw [show objFromList m (kv :: rest) = objFromList (objInsert m kv.1 kv.2) rest from rfl]
    rw [ih (objInsert m kv.1 kv.2), objInsert_keys]
    by_cases h : kv.1 ∈ m.map Prod.fst
    · rw [if_pos h, List.map_cons]
      simp [dedupKeys, h]
    · rw [if_neg h, List.map_cons]
      have hcong : dedupKeys (m.map Prod.fst ++ [kv.1]) (rest.map Prod.fst)
          = dedupKeys (kv.1 :: m.map Prod.fst) (rest.map Prod.fst) := by
        refine dedupKeys_congr _ _ _ ?_
        intro w
        simp [or_comm]
      rw [hcong]
      simp [dedupKeys, h]

theorem dedupKeys_props : ∀ (l seen : List String),
    (dedupKeys seen l).Nodup ∧ ∀ k ∈ dedupKeys seen l, ¬ k ∈ seen := by
  intro l
  induction l with
  | nil => intro seen; simp [dedupKeys]
  | cons k ks ih =>
    intro seen
    by_cases hk : k ∈ seen
    · simpa [dedupKeys, hk] using ih seen
    · obtain ⟨hnd, hav⟩ := ih (k :: seen)
      simp only [dedupKeys, if_neg hk]
      refine ⟨List.nodup_cons.mpr ⟨fun hmem => hav _ hmem (by simp), hnd⟩, ?_⟩
      intro w hw
      rcases List.mem_cons.mp hw with rfl | hw'
      · exact hk
      · exact fun hs => hav _ hw' (List.mem_cons.mpr (Or.inr hs))

theorem dedupKeys_subset : ∀ (l seen : List String) (k : String),
    k ∈ dedupKeys seen l → k ∈ l := by
  intro l
  induction l with
  | nil => intro seen k h; simp [dedupKeys] at h
  | cons a as ih =>
    intro seen k h
    by_cases ha : a ∈ seen
    · simp only [dedupKeys, if_pos ha] at h
      exact List.mem_cons.mpr (Or.inr (ih _ _ h))
    · simp only [dedupKeys, if_neg ha] at h
      rcases List.mem_cons.mp h with rfl | h'
      · exact List.mem_cons_self _ _
      · exact List.mem_cons.mpr (Or.inr (ih _ _ h'))

theorem objFromList_append (m l₁ l₂ : List (String × String)) :
    objFromList m (l₁ ++ l₂) = objFromList (objFromList m l₁) l₂ :=
  List.foldl_append _ _ _ _

theorem collect_inner (w pos : String) : ∀ (l : List (Nat × DefinitionItem))
    (acc : List (String × String) × List (String × String)),
    l.foldl (collectStep w pos) acc
      = (objFromList acc.1 (l.map (fun iv => (mkDefKey w pos iv.1, iv.2.definition))),
         objFromList acc.2 (l.filterMap (fun iv =>
           iv.2.exampleText.map (fun ex => (mkExampleKey w pos iv.1, ex))))) := by
  intro l
  induction l with
  | nil => intro acc; simp [objFromList]
  | cons iv rest ih =>
    intro acc
    rw [List.foldl_cons, ih]
    cases hex : iv.2.exampleText with
    | none =>
      simp [collectStep, hex, objFromList, List.filterMap_cons]
    | some ex =>
      simp [collectStep, hex, objFromList, List.filterMap_cons]

theorem collect_meanings (w : String) : ∀ (ms : List Meaning)
    (acc : List (String × String) × List (String × String)),
    ms.foldl (fun acc2 m => m.definitions.enum.foldl (collectStep w m.partOfSpeech) acc2) acc
      = (objFromList acc.1 (ms.flatMap (fun m =>
           m.definitions.enum.map (fun iv => (mkDefKey w m.partOfSpeech iv.1, iv.2.definition)))),
         objFromList acc.2 (ms.flatMap (fun m =>
           m.definitions.enum.filterMap (fun iv =>
             iv.2.exampleText.map (fun ex => (mkExampleKey w m.partOfSpeech iv.1, ex)))))) := by
  intro ms
  induction ms with
  | nil => intro acc; simp [objFromList]
  | cons m rest ih =>
    intro acc
    rw [List.foldl_cons, collect_inner, ih]
    simp only [List.flatMap_cons, objFromList_append]

theorem collectTranslatable_eq (defs : List DictionaryResponse) :
    collectTranslatable defs
      = (objFromList [] (allDefKeyTexts defs), objFromList [] (allExampleKeyTexts defs)) := by
  have h : ∀ (ds : List DictionaryResponse)
      (acc : List (String × String) × List (String × String)),
      ds.foldl (fun acc e =>
          e.meanings.foldl (fun acc2 m =>
            m.definitions.enum.foldl (collectStep e.word m.partOfSpeech) acc2) acc) acc
        = (objFromList acc.1 (ds.flatMap defKeyTexts),
           objFromList acc.2 (ds.flatMap exampleKeyTexts)) := by
    intro ds
    induction ds with
    | nil => intro acc; simp [objFromList]
    | cons e rest ih =>
      intro acc
      rw [List.foldl_cons, collect_meanings, ih]
      simp only [List.flatMap_cons, objFromList_append, defKeyTexts, exampleKeyTexts]
  exact h defs ([], [])

theorem collect_def_keys (defs : List DictionaryResponse) :
    (collectTranslatable defs).1.map Prod.fst
      = dedupKeys [] ((allDefKeyTexts defs).map Prod.fst) := by
  rw [collectTranslatable_eq]
  have h := objFromList_keys (allDefKeyTexts defs) []
  simpa using h

theorem collect_example_keys (defs : List DictionaryResponse) :
    (collectTranslatable defs).2.map Prod.fst
      = dedupKeys [] ((allExampleKeyTexts defs).map Prod.fst) := by
  rw [collectTranslatable_eq]
  have h := objFromList_keys (allExampleKeyTexts defs) []
  simpa using h

theorem mem_allDefKeyTexts_shape (defs : List DictionaryResponse) (k : String)
    (h : k ∈ (allDefKeyTexts defs).map Prod.fst) : ∃ w p i, k = mkDefKey w p i := by
  rcases List.mem_map.mp h with ⟨kv, hkv, rfl⟩
  rcases List.mem_flatMap.mp hkv with ⟨e, _, hkv2⟩
  rcases List.mem_flatMap.mp hkv2 with ⟨m, _, hkv3⟩
  rcases List.mem_map.mp hkv3 with ⟨iv, _, rfl⟩
  exact ⟨e.word, m.partOfSpeech, iv.1, rfl⟩

theorem mem_allExampleKeyTexts_shape (defs : List DictionaryResponse) (k : String)
    (h : k ∈ (allExampleKeyTexts defs).map Prod.fst) : ∃ w p i, k = mkExampleKey w p i := by
  rcases List.mem_map.mp h with ⟨kv, hkv, rfl⟩
  rcases List.mem_flatMap.mp hkv with ⟨e, _, hkv2⟩
  rcases List.mem_flatMap.mp hkv2 with ⟨m, _, hkv3⟩
  rcases List.mem_filterMap.mp hkv3 with ⟨iv, _, hiv⟩
  rcases Option.map_eq_some'.mp hiv with ⟨ex, _, hkv4⟩
  exact ⟨e.word, m.partOfSpeech, iv.1, by rw [← hkv4]⟩

theorem natCharsGo_append : ∀ (fuel n : Nat) (acc₁ acc₂ : List Char),
    natCharsGo fuel n (acc₁ ++ acc₂) = natCharsGo fuel n acc₁ ++ acc₂ := by
  intro fuel
  induction fuel with
  | zero => intro n acc₁ acc₂; rfl
  | succ f ih =>
    intro n acc₁ acc₂
    by_cases h : n < 10
    · simp only [natCharsGo, if_pos h]
      rfl
    · simp only [natCharsGo, if_neg h]
      rw [show Nat.digitChar (n % 10) :: (acc₁ ++ acc₂)
            = (Nat.digitChar (n % 10) :: acc₁) ++ acc₂ from rfl, ih]

theorem natChars_getLast (n : Nat) :
    (natChars n).getLast? = some (Nat.digitChar (n % 10)) := by
  simp only [natChars]
  by_cases h : n < 10
  · simp [natCharsGo, h]
  · simp only [natCharsGo, if_neg h]
    rw [show [Nat.digitChar (n % 10)] = [] ++ [Nat.digitChar (n % 10)] from rfl,
      natCharsGo_append]
    exact List.getLast?_concat _

theorem digitChar_lt_ten_ne_e : ∀ k : Nat, k < 10 → Nat.digitChar k ≠ 'e' := by
  intro k hk
  interval_cases k <;> decide

theorem mkDefKey_last (w p : String) (i : Nat) :
    (mkDefKey w p i).data.getLast? = some (Nat.digitChar (i % 10)) := by
  simp only [mkDefKey]
  rw [String.data_append, List.getLast?_append]
  rw [show (natToStr i).data = natChars i from rfl, natChars_getLast]
  rfl

theorem mkExampleKey_last (w p : String) (i : Nat) :
    (mkExampleKey w p i).data.getLast? = some 'e' := by
  simp only [mkExampleKey]
  rw [String.data_append, List.getLast?_append]
  rw [show ("-example" : String).data.getLast? = some 'e' by decide]
  rfl

theorem mkDefKey_ne_mkExampleKey (w p : String) (i : Nat) (w' p' : String) (j : Nat) :
    mkDefKey w p i ≠ mkExampleKey w' p' j := by
  intro h
  have hd : (mkDefKey w p i).data.getLast? = (mkExampleKey w' p' j).data.getLast? := by
    rw [h]
  rw [mkDefKey_last, mkExampleKey_last] at hd
  exact digitChar_lt_ten_ne_e (i % 10) (Nat.mod_lt _ (by norm_num)) (Option.some.inj hd)

theorem runBulk_keys (lang : Language) (now : Int) (net : String → String → Option String) :
    ∀ (invs : List (String × String)) (cache : TranslationCache),
    (runBulk lang now net cache invs).1.map Prod.fst = invs.map Prod.fst := by
  intro invs
  induction invs with
  | nil => intro cache; rfl
  | cons kv rest ih => intro cache; simp [runBulk, ih]

/-! ### Claim theorems -/

/-- Claim C1, counterexample: at `now - fetchedAt` exactly 24 hours the
claim demands a hit, but the source's strict comparison treats the entry
as expired — `store("k", "v", 0)` followed by `lookup` at 86400000 ms
misses even though `86400000 - 0 ≤ 24h`. -/
theorem claim1_counterexample :
    (86400000 : Int) - 0 ≤ 86400000
      ∧ cacheLookup (cacheStore ([] : TranslationCache) "k" "v" 0) "k" 86400000 = none := by
  decide

/-- Claim C1, amended: after `store(k, v, t)`, `lookup(k)` at time `now`
returns the entry exactly when `now - t` is strictly below 24 hours and
behaves as absent otherwise, while the stored entry itself stays
physically present (lookup never purges). -/
theorem claim1_cache_roundtrip (m : TranslationCache) (k v : String) (t now : Int) :
    cacheLookup (cacheStore m k v t) k now
        = (if now - t < dayMs then some ⟨v, t⟩ else none)
      ∧ cacheFind (cacheStore m k v t) k = some ⟨v, t⟩ := by
  refine ⟨?_, cacheFind_cacheStore m k v t⟩
  simp [cacheLookup, cacheFind_cacheStore]

/-- Claim C2, counterexample: two homograph entries share the headword
`run` and the part of speech `noun`, so their two distinct definition
texts map to the same cache key `run-noun-0` and the fan-out performs a
single translation invocation instead of one per definition — the claim's
"once for every definition text" fails. -/
theorem claim2_counterexample :
    (allDefKeyTexts twoRunEntries).length = 2
      ∧ ((bulkInvocations Language.ptBR twoRunEntries).1).length = 1 := by
  decide

/-- Claim C2, amended: after a successful lookup with a non-English
target, the fan-out invokes the translation client once per distinct
definition cache key and once per distinct example cache key (keys in
first-occurrence order; items sharing a key — e.g. homograph entries with
the same headword and part of speech — collapse into one invocation), all
invoked keys are pairwise distinct, and the executed fan-out issues
exactly one client call per invocation; with an English target no
invocation is made. -/
theorem claim2_bulk_translation_keys (lang : Language) (defs : List DictionaryResponse)
    (cache : TranslationCache) (now : Int) (net : String → String → Option String) :
    ((bulkInvocations lang defs).1.map Prod.fst
        = if lang = Language.en then []
          else dedupKeys [] ((allDefKeyTexts defs).map Prod.fst))
      ∧ ((bulkInvocations lang defs).2.map Prod.fst
        = if lang = Language.en then []
          else dedupKeys [] ((allExampleKeyTexts defs).map Prod.fst))
      ∧ (((bulkInvocations lang defs).1 ++ (bulkInvocations lang defs).2).map Prod.fst).Nodup
      ∧ (runBulk lang now net cache (bulkInvocations lang defs).1).1.map Prod.fst
          = (bulkInvocations lang defs).1.map Prod.fst := by
  by_cases hl : lang = Language.en
  · simp [bulkInvocations, hl, runBulk]
  · simp only [bulkInvocations, if_neg hl]
    refine ⟨collect_def_keys defs, collect_example_keys defs, ?_, runBulk_keys _ _ _ _ _⟩
    rw [List.map_append, collect_def_keys, collect_example_keys]
    refine List.Nodup.append (dedupKeys_props _ []).1 (dedupKeys_props _ []).1 ?_
    intro k hk1 hk2
    have hk1' := dedupKeys_subset _ _ _ hk1
    have hk2' := dedupKeys_subset _ _ _ hk2
    obtain ⟨w, p, i, rfl⟩ := mem_allDefKeyTexts_shape _ _ hk1'
    obtain ⟨w', p', j, heq⟩ := mem_allExampleKeyTexts_shape _ _ hk2'
    exact mkDefKey_ne_mkExampleKey w p i w' p' j heq

/-- Claim C3: whenever `translateText` actually reaches the network and
the call fails in any way (the oracle is `none`: network error, malformed
response or non-success status), the function returns the original
untranslated text. -/
theorem claim3_failure_returns_original (language : Language) (cache : TranslationCache)
    (now : Int) (text : String) (cacheKey : Option String)
    (h : (translateText language cache now text cacheKey none).2.2 = true) :
    (translateText language cache now text cacheKey none).1 = text := by
  unfold translateText at h ⊢
  by_cases hl : language = Language.en
  · rw [if_pos hl] at h
    exact absurd h (by simp)
  · rw [if_neg hl] at h ⊢
    cases hcl : cacheLookup cache (effectiveKey text cacheKey) now with
    | some e => rw [hcl] at h; simp at h
    | none => rfl

/-- Claim C3, witness: a concrete failing call (Portuguese target, empty
cache) reaches the network and hands back the original text. -/
theorem claim3_witness :
    (translateText Language.ptBR ([] : TranslationCache) 0 "hello" none none).2.2 = true
      ∧ (translateText Language.ptBR ([] : TranslationCache) 0 "hello" none none).1 = "hello" :=
  ⟨by decide,
    claim3_failure_returns_original Language.ptBR ([] : TranslationCache) 0 "hello" none
      (by decide)⟩

/-- Claim C4: the related-word aggregation equals the spec pipeline —
concatenate synonyms, triggers, adjectives in that order, deduplicate by
word text keeping the first occurrence, sort by score descending,
truncate to 30 — and consequently its output has at most 30 items, no
duplicate word text, and scores in descending order. -/
theorem claim4_related_aggregation (syn trg adj : List RelatedWord) :
    combineRelated syn trg adj = specAggregate syn trg adj
      ∧ (combineRelated syn trg adj).length ≤ 30
      ∧ ((combineRelated syn trg adj).map RelatedWord.word).Nodup
      ∧ (combineRelated syn trg adj).Pairwise (fun a b => b.score ≤ a.score) := by
  have heq : combineRelated syn trg adj = specAggregate syn trg adj := by
    rw [combineRelated, specAggregate, jsDedup_eq_dedupFirst]
  refine ⟨heq, List.length_take_le _ _, ?_, ?_⟩
  · rw [combineRelated]
    have h1 : ((jsDedupByWord (syn ++ trg ++ adj)).map RelatedWord.word).Nodup := by
      rw [jsDedup_eq_dedupFirst]
      exact (dedupFirstRW_props (syn ++ trg ++ adj) []).1
    have hperm : ((jsDedupByWord (syn ++ trg ++ adj)).mergeSort relatedLe).Perm
        (jsDedupByWord (syn ++ trg ++ adj)) := List.mergeSort_perm _ _
    have h2 : (((jsDedupByWord (syn ++ trg ++ adj)).mergeSort relatedLe).map
        RelatedWord.word).Nodup := ((hperm.map RelatedWord.word).nodup_iff).mpr h1
    exact List.Nodup.sublist ((List.take_sublist 30 _).map RelatedWord.word) h2
  · rw [combineRelated]
    have hs := List.sorted_mergeSort relatedLe_trans relatedLe_total
      (jsDedupByWord (syn ++ trg ++ adj))
    have hs' : ((jsDedupByWord (syn ++ trg ++ adj)).mergeSort relatedLe).Pairwise
        (fun a b => b.score ≤ a.score) := by
      refine hs.imp ?_
      intro a b hab
      simpa [relatedLe] using hab
    exact List.Pairwise.sublist (List.take_sublist 30 _) hs'

/-- Claim C5: `addToHistory` lowercases the searched word, removes any
case-insensitively equal prior occurrence, inserts at the front, and caps
the list at 15: the `Hello` / `WORLD` / `hello` scenario produces
`["hello", "world"]`, the length never exceeds 15, the head is always the
(lowercased) word just searched, and nothing case-insensitively equal to
it survives behind the front slot. -/
theorem claim5_history_dedup_and_cap :
    (addToHistory (addToHistory (addToHistory [] "Hello") "WORLD") "hello"
        = ["hello", "world"])
      ∧ (∀ (h : List String) (w : String), (addToHistory h w).length ≤ 15)
      ∧ (∀ (h : List String) (w : String), (addToHistory h w).head? = some (strLower w))
      ∧ (∀ (h : List String) (w : String),
          (addToHistory h w).tail.all (fun x => strLower x ≠ strLower w) = true) := by
  refine ⟨by decide, fun h w => List.length_take_le 15 _, fun h w => ?_, fun h w => ?_⟩
  · rw [addToHistory, show (15 : Nat) = 14 + 1 from rfl, List.take_succ_cons, List.head?_cons]
  · rw [addToHistory, show (15 : Nat) = 14 + 1 from rfl, List.take_succ_cons, List.tail_cons]
    exact all_take_of_all _ 14 _ (all_self_filter _ _)

/-- Claim C6: if any of the three Datamuse sub-calls fails (so in
particular when all three fail), `fetchRelatedWords` leaves the entire
state — the related-word list and the error display included — exactly as
it was: the rejection is caught and only logged. -/
theorem claim6_related_failure_preserves_state (st : AppState) (env : NetworkEnv)
    (h : env.syn = none ∨ env.trg = none ∨ env.adj = none) :
    fetchRelatedWordsFull st env = (st, 3) := by
  unfold fetchRelatedWordsFull
  rcases hs : env.syn with _ | s
  · rfl
  · rcases ht : env.trg with _ | t
    · rfl
    · rcases ha : env.adj with _ | a
      · rfl
      · rw [hs, ht, ha] at h
        rcases h with h | h | h <;> exact absurd h (by simp)

/-- Claim C6, witness: with every network call failing, the prior state
survives untouched. -/
theorem claim6_witness :
    fetchRelatedWordsFull emptyState noNetworkEnv = (emptyState, 3) :=
  claim6_related_failure_preserves_state emptyState noNetworkEnv (Or.inl rfl)

/-- Claim C7: with the target language equal to the English source
language, `translateText` returns the text unchanged, leaves the cache
untouched (no consultation can be observed: the result is independent of
the cache contents) and performs zero network calls. -/
theorem claim7_english_fast_path (cache : TranslationCache) (now : Int) (w : String)
    (cacheKey : Option String) (net : Option String) :
    translateText Language.en cache now w cacheKey net = (w, cache, false) := by
  simp [translateText]

/-- Claim C8: on blank or whitespace-only input, `handleSearch` is a
no-op — the state (history, definitions, related words, translation,
cache, error) is returned unchanged and zero network calls are issued. -/
theorem claim8_blank_search_is_noop (st : AppState) (searchWord : String)
    (env : NetworkEnv) (now : Int) (h : strTrim searchWord = "") :
    handleSearch st searchWord env now = (st, 0) := by
  unfold handleSearch
  rw [if_pos h]

/-- Claim C8, witness: searching three spaces changes nothing and calls
nothing. -/
theorem claim8_witness :
    strTrim "   " = ""
      ∧ handleSearch emptyState "   " noNetworkEnv 0 = (emptyState, 0) :=
  ⟨by decide, claim8_blank_search_is_noop emptyState "   " noNetworkEnv 0 (by decide)⟩

/-- Claim C9: toggling a word's favorite status twice restores the
original favorites viewed as a set of word strings (membership is
preserved element for element). -/
theorem claim9_toggle_involution (favs : List String) (w x : String) :
    x ∈ toggleFavorite (toggleFavorite favs w) w ↔ x ∈ favs := by
  by_cases hc : w ∈ favs
  · have h1 : toggleFavorite favs w = favs.filter (fun y => y ≠ w) := by
      simp [toggleFavorite, hc]
    have h2 : ¬ w ∈ favs.filter (fun y => y ≠ w) := by simp
    have h3 : toggleFavorite (favs.filter (fun y => y ≠ w)) w
        = favs.filter (fun y => y ≠ w) ++ [w] := by
      simp [toggleFavorite, h2]
    rw [h1, h3]
    by_cases hxw : x = w <;> simp [hxw, hc]
  · have h1 : toggleFavorite favs w = favs ++ [w] := by
      simp [toggleFavorite, hc]
    have h2 : w ∈ favs ++ [w] := by simp
    have h3 : toggleFavorite (favs ++ [w]) w = (favs ++ [w]).filter (fun y => y ≠ w) := by
      simp [toggleFavorite, h2]
    have h4 : (favs ++ [w]).filter (fun y => y ≠ w) = favs := by
      rw [List.filter_append]
      have h5 : ([w].filter (fun y => y ≠ w)) = ([] : List String) := by simp
      have h6 : favs.filter (fun y => y ≠ w) = favs := by
        rw [List.filter_eq_self]
        intro a ha
        simp
        rintro rfl
        exact hc ha
      rw [h5, h6, List.append_nil]
    rw [h1, h3, h4]

/-- Claim C10 (implicit): when the dictionary lookup fails — 404 or any
other failure — the previously displayed definitions are discarded (the
list is cleared to empty, whatever it held before) and the error state is
set to the corresponding message. -/
theorem claim10_lookup_failure_clears_definitions (st : AppState) (now : Int)
    (sy tg aj : Option (List RelatedWord)) (net : String → String → Option String) :
    ((fetchDefinitionsFull st ⟨DictOutcome.notFound, sy, tg, aj, net⟩ now).1.definitions = []
        ∧ (fetchDefinitionsFull st ⟨DictOutcome.notFound, sy, tg, aj, net⟩ now).1.error
            = some (wordNotFoundMsg st.language))
      ∧ (fetchDefinitionsFull st ⟨DictOutcome.failed, sy, tg, aj, net⟩ now).1.definitions = []
        ∧ (fetchDefinitionsFull st ⟨DictOutcome.failed, sy, tg, aj, net⟩ now).1.error
            = some "Failed to fetch data" := by
  simp [fetchDefinitionsFull]

end Englytics
